import Mathlib

/-
Verification development for the component language-server in
src/4_LSP_Server/src/main.rs.

The Rust source is shallowly embedded: tree-sitter parse trees are modelled
as explicit Lean trees (the parsing step itself — text to tree — is an
external library call and is taken as input), the structural queries
FIND_COMPONENT_QUERY_STRING and INOUT_QUERY_STRING are modelled by their
match semantics over those trees, the DashMap component index is modelled
as an association list whose insert overwrites the key, and Rust panics
(expect / unwrap) are modelled as Except.error.
-/

set_option autoImplicit false

namespace ZeroToHero

/-! ## Basic LSP data (tower_lsp::lsp_types, restricted to the fields the
program constructs) -/

/-- An LSP position: zero-based line and character, as sent by the client. -/
structure Position where
  line : Nat
  character : Nat
deriving DecidableEq, Repr

/-- An LSP range, as produced by to_range from a tree_sitter Range
(start/end points, line and column each). -/
structure Range where
  startLine : Nat
  startChar : Nat
  endLine : Nat
  endChar : Nat
deriving DecidableEq, Repr

/-- A component record, as in struct Component of the source: selector
string, file URL (modelled as a string), the range of the class-name token,
and the input/output member-name lists. -/
structure Component where
  selector : String
  file_url : String
  class_name_range : Range
  inputs : List String
  outputs : List String
deriving DecidableEq, Repr

/-! ## The component index

The source shares an Arc of a DashMap from String to Component. Individual
map operations (insert, get) are atomic; we model the map as an association
list with at most one live entry per key: insert prepends and drops any
previous entry for the key, matching DashMap overwrite semantics. -/

/-- The component index: selector-keyed map, modelled as an association
list. -/
abbrev Index := List (String × Component)

/-- DashMap::get — look a selector up in the index. -/
def idxLookup (m : Index) (k : String) : Option Component :=
  (m.find? (fun p => p.1 == k)).map (fun p => p.2)

/-- DashMap::insert — insert, overwriting any prior entry with the same
key. -/
def idxInsert (m : Index) (k : String) (v : Component) : Index :=
  (k, v) :: m.filter (fun p => p.1 != k)

/-! ## TypeScript-side model

The TypeScript grammar fragment that the two queries inspect. A source
file is a list of top-level statements; only decorated, exported class
declarations can match FIND_COMPONENT_QUERY_STRING (the query pattern is
rooted at export_statement with a decorator field and a class_declaration
declaration field, with predicates #eq? dec-name Component and
#eq? prop-name selector). -/

/-- A decorator-call argument: a string literal (its unquoted
string_fragment text), an object literal (list of key/value pairs), or
anything else. -/
inductive ArgValue where
  | str (s : String)
  | obj (pairs : List (String × ArgValue))
  | other

/-- A decorator that is a call expression with an identifier function:
its name and its argument list. -/
structure DecoratorCall where
  name : String
  args : List ArgValue

/-- A class member (public_field_definition or method_definition): its
property-identifier name, and the name of the decorator call immediately
preceding it, when there is one (the INOUT query anchors the decorator
directly before the member). Members whose preceding decorator is not a
call with an identifier function are modelled with decorator none, since
the query cannot capture them. -/
structure Member where
  decorator : Option String
  name : String

/-- A class declaration: its type_identifier name together with that
token's range, and its members in source order. -/
structure ClassDecl where
  name : String
  nameRange : Range
  members : List Member

/-- The declaration field of an export statement: a class declaration or
some other declaration form. -/
inductive Declaration where
  | classDecl (c : ClassDecl)
  | other

/-- A top-level statement: whether it is an export_statement, its
decorator calls, and its declaration. -/
structure TopLevel where
  exported : Bool
  decorators : List DecoratorCall
  decl : Declaration

/-- A parsed TypeScript source file. -/
abbrev TsFile := List TopLevel

/-- Concatenation of the images of a list-valued function, in order (the
order in which query matches are produced). -/
def concatMap {α β : Type} (g : α → List β) : List α → List β
  | [] => []
  | a :: as => g a ++ concatMap g as

/-- Boolean list prefix test (used to model regex search). -/
def startsWithB : List Char → List Char → Bool
  | [], _ => true
  | _ :: _, [] => false
  | a :: as, b :: bs => a == b && startsWithB as bs

/-- Boolean substring test: does needle occur contiguously in the
haystack? -/
def hasSubList (needle : List Char) : List Char → Bool
  | [] => startsWithB needle []
  | h :: t => startsWithB needle (h :: t) || hasSubList needle t

/-- The #match? dec-name "Input|Output" predicate of
INOUT_QUERY_STRING: an unanchored regex search, true iff the decorator
name contains Input or Output as a substring. -/
def matchesInOut (d : String) : Bool :=
  hasSubList "Input".data d.data || hasSubList "Output".data d.data

/-- The per-component input/output classification loop of analyze_file:
for each member matched by INOUT_QUERY_STRING (decorator call present and
name matching the regex), push the member name to inputs when the
decorator name equals "Input" and to outputs otherwise, preserving match
order. -/
def collectInOut : List Member → List String × List String
  | [] => ([], [])
  | m :: rest =>
    let acc := collectInOut rest
    match m.decorator with
    | some d =>
      if matchesInOut d then
        if d == "Input" then (m.name :: acc.1, acc.2)
        else (acc.1, m.name :: acc.2)
      else acc
    | none => acc

/-- The selector captures of FIND_COMPONENT_QUERY_STRING inside one
decorator call: for each object-literal argument, each pair whose key is
"selector" and whose value is a string literal yields the string_fragment
text (one query match per such pair). -/
def selectorStringsOf (d : DecoratorCall) : List String :=
  concatMap (fun a =>
    match a with
    | ArgValue.obj pairs =>
      pairs.filterMap (fun p =>
        match p.2 with
        | ArgValue.str s => if p.1 == "selector" then some s else none
        | _ => none)
    | _ => []) d.args

/-- The file URL built in analyze_file:
Url::options().base_url(Url::parse("file://")).parse(path). -/
def mkFileUrl (path : String) : String := "file://" ++ path

/-- The components contributed by one top-level statement: the query
matches only export statements whose declaration is a class declaration
and whose decorator is a call named Component (predicate
#eq? dec-name Component) carrying a selector string; each match builds a
Component with the captured selector, the class-name token range, and the
classified input/output lists. -/
def componentsOfItem (path : String) (t : TopLevel) : List Component :=
  if t.exported then
    match t.decl with
    | Declaration.classDecl c =>
      concatMap (fun d =>
        if d.name == "Component" then
          (selectorStringsOf d).map (fun s =>
            { selector := s
              file_url := mkFileUrl path
              class_name_range := c.nameRange
              inputs := (collectInOut c.members).1
              outputs := (collectInOut c.members).2 })
        else []) t.decorators
    | Declaration.other => []
  else []

/-- All components extracted from one parsed file, in match order. -/
def extractComponents (path : String) (f : TsFile) : List Component :=
  concatMap (componentsOfItem path) f

/-- The insertion loop at the end of analyze_file: each extracted
component is inserted into the shared index under its selector. -/
def insertAll (idx : Index) (cs : List Component) : Index :=
  cs.foldl (fun m c => idxInsert m c.selector c) idx

/-! ## The workspace scan

analyze_file reads the file (fs::read_to_string, with expect — a read
failure panics), parses it (parser.parse with unwrap — a parse failure
panics), and inserts every extracted component. analyze_workspace walks
the glob entries, warning and continuing on entry errors, and calling
analyze_file on each path; a panic unwinds the whole spawned scan task.
Reading and parsing are external effects, passed in as functions. -/

/-- analyze_file: read, parse, extract, insert. Panics are modelled as
Except.error carrying the panic message. -/
def analyzeFile (readFile : String → Option String)
    (parseTs : String → Option TsFile)
    (path : String) (idx : Index) : Except String Index :=
  match readFile path with
  | none => Except.error "Should have been able to read the file"
  | some contents =>
    match parseTs contents with
    | none => Except.error "called Option::unwrap on a None value"
    | some tree => Except.ok (insertAll idx (extractComponents path tree))

/-- One glob iterator entry: a path, or a per-entry error. -/
inductive GlobEntry where
  | ok (path : String)
  | err (msg : String)

/-- analyze_workspace over the glob entries: entry errors are logged and
skipped; a panic inside analyze_file aborts the remaining scan. -/
def analyzeWorkspace (readFile : String → Option String)
    (parseTs : String → Option TsFile)
    (entries : List GlobEntry) (idx : Index) : Except String Index :=
  match entries with
  | [] => Except.ok idx
  | GlobEntry.err _ :: rest => analyzeWorkspace readFile parseTs rest idx
  | GlobEntry.ok p :: rest =>
    match analyzeFile readFile parseTs p idx with
    | Except.error e => Except.error e
    | Except.ok idx2 => analyzeWorkspace readFile parseTs rest idx2

/-! ## HTML-side model

A tree-sitter HTML parse tree node: its kind, whether it is a named node,
its byte span, and its children (named and anonymous, in order). -/

/-- An HTML syntax-tree node. -/
inductive HNode where
  | node (kind : String) (named : Bool) (startB endB : Nat) (children : List HNode)

/-- Node kind. -/
def HNode.kind : HNode → String
  | HNode.node k _ _ _ _ => k

/-- Is the node a named (non-anonymous) node? -/
def HNode.named : HNode → Bool
  | HNode.node _ nm _ _ _ => nm

/-- start_byte of the node's span. -/
def HNode.startB : HNode → Nat
  | HNode.node _ _ s _ _ => s

/-- end_byte of the node's span. -/
def HNode.endB : HNode → Nat
  | HNode.node _ _ _ e _ => e

/-- The node's children. -/
def HNode.children : HNode → List HNode
  | HNode.node _ _ _ _ cs => cs

/-- The cursor loop of find_node, expressed over the remaining siblings at
the current level: if the offset lies in the current node's inclusive span,
return it when its kind is requested, else descend into its children
(returning none when there are none — the loop never climbs back up);
otherwise advance to the next sibling (returning none when the level is
exhausted). -/
def findSibs (kinds : List String) (offset : Nat) : List HNode → Option HNode
  | [] => none
  | HNode.node k nm s e cs :: rest =>
    if s ≤ offset ∧ offset ≤ e then
      if k ∈ kinds then some (HNode.node k nm s e cs)
      else findSibs kinds offset cs
    else findSibs kinds offset rest

/-- find_node from the source: walk from the given node. -/
def findNode (root : HNode) (offset : Nat) (kinds : List String) : Option HNode :=
  findSibs kinds offset [root]

/-- Are consecutive siblings ordered, each ending no later than the next
starts? -/
def sortedB : List HNode → Bool
  | [] => true
  | [_] => true
  | a :: b :: rest => decide (a.endB ≤ b.startB) && sortedB (b :: rest)

mutual

/-- Well-formedness of a parse tree: the span is ordered, children lie
inside the parent span, siblings are ordered, recursively. Every tree
produced by the HTML parser satisfies this. -/
def wfB : HNode → Bool
  | HNode.node _ _ s e cs => decide (s ≤ e) && wfChildren s e cs && sortedB cs

/-- Well-formedness of a child list against the parent span. -/
def wfChildren (s e : Nat) : List HNode → Bool
  | [] => true
  | c :: rest => decide (s ≤ c.startB) && decide (c.endB ≤ e) && wfB c && wfChildren s e rest

end

/-- Occurrence of a node in a tree (reflexive-transitive child steps). -/
inductive Occurs (n : HNode) : HNode → Prop where
  | here : Occurs n n
  | child (k : String) (nm : Bool) (s e : Nat) (cs : List HNode) (c : HNode)
      (hc : c ∈ cs) (ho : Occurs n c) : Occurs n (HNode.node k nm s e cs)

/-- Occurrence of a node in a tree such that no strict ancestor on the
path has a kind in the given set. -/
inductive OccursAvoiding (kinds : List String) (n : HNode) : HNode → Prop where
  | here : OccursAvoiding kinds n n
  | child (k : String) (nm : Bool) (s e : Nat) (cs : List HNode) (c : HNode)
      (hc : c ∈ cs) (hk : k ∉ kinds) (ho : OccursAvoiding kinds n c) :
      OccursAvoiding kinds n (HNode.node k nm s e cs)

/-- Total size of a list of trees, for strong induction along the
traversal of findSibs. -/
def sizeL : List HNode → Nat
  | [] => 0
  | HNode.node _ _ _ _ cs :: rest => 1 + sizeL cs + sizeL rest

/-! ## Completion items and the completion function -/

/-- The two CompletionItemKind values the program uses. -/
inductive CIKind where
  | keyword
  | field
deriving DecidableEq, Repr

/-- The InsertTextFormat value the program uses. -/
inductive ITFormat where
  | snippet
deriving DecidableEq, Repr

/-- A completion item, restricted to the fields the program sets; unset
fields keep their Default::default() value none. -/
structure CompletionItem where
  label : String
  kind : Option CIKind := none
  insert_text : Option String := none
  insert_text_format : Option ITFormat := none
deriving DecidableEq, Repr

/-- template.replace("\x7b\x7d", input) from make_completions, specialised
to the only pattern the program passes: every occurrence of the two-char
sequence brace-open brace-close is replaced, left to right. -/
def replaceBraces (rep : List Char) : List Char → List Char
  | [] => []
  | '{' :: '}' :: rest => rep ++ replaceBraces rep rest
  | c :: rest => c :: replaceBraces rep rest

/-- make_completions from the completion function: one FIELD snippet item
per element, with the element substituted into the template. -/
def makeCompletions (elements : List String) (template : String) : List CompletionItem :=
  elements.map (fun input =>
    { label := input
      kind := some CIKind.field
      insert_text := some (String.mk (replaceBraces input.data template.data))
      insert_text_format := some ITFormat.snippet })

/-- Rope slice by a half-open index range, as ropey's Rope::slice: the rope
is indexed by chars, and an out-of-bounds or inverted range panics
(modelled as Except.error). RopeSlice::as_str returning None for a
non-contiguous slice cannot occur for ropes built from one string here, so
a successful slice yields its text. -/
def ropeSlice (rope : List Char) (s e : Nat) : Except String (List Char) :=
  if s ≤ e ∧ e ≤ rope.length then Except.ok ((rope.drop s).take (e - s))
  else Except.error "slice index out of bounds"

/-- Node::named_child(0): the first named child. -/
def namedChild0 (n : HNode) : Option HNode :=
  n.children.find? (fun c => c.named)

/-- The completion function of the source (fn completion): find the
enclosing start/self-closing tag; inside a tag name, offer every selector
in the index as a keyword item; otherwise, inside an attribute name, read
the tag's first named child as the tag name, resolve it in the index, and
offer the component's inputs and outputs as snippet items; any failed step
yields the empty list (unwrap_or(Vec::new())). -/
def completionFn (root : HNode) (offset : Nat) (rope : List Char)
    (components : Index) : Except String (List CompletionItem) :=
  match findNode root offset ["start_tag", "self_closing_tag"] with
  | none => Except.ok []
  | some startTag =>
    match findNode startTag offset ["tag_name"] with
    | some _ =>
      Except.ok (components.map (fun p =>
        { label := p.2.selector, kind := some CIKind.keyword }))
    | none =>
      match findNode startTag offset ["attribute_name"] with
      | none => Except.ok []
      | some _ =>
        match namedChild0 startTag with
        | none => Except.ok []
        | some nameNode =>
          match ropeSlice rope nameNode.startB nameNode.endB with
          | Except.error e => Except.error e
          | Except.ok chars =>
            match idxLookup components (String.mk chars) with
            | none => Except.ok []
            | some comp =>
              Except.ok (makeCompletions comp.inputs "[\x7b\x7d]=\"$0\"" ++
                makeCompletions comp.outputs "(\x7b\x7d)=\"$0\"")

/-! ## Document store, position mapping and the request handlers -/

/-- An LSP location: URI and range. -/
structure Location where
  uri : String
  range : Range
deriving DecidableEq, Repr

/-- The Backend state: the shared component index, the document map
(URI to rope, the rope modelled as its char sequence) and the ast map
(URI to parsed HTML tree). -/
structure ServerState where
  components : Index
  documentMap : List (String × List Char)
  astMap : List (String × HNode)

/-- Remove every entry with the given key from an association list. -/
def alErase {β : Type} (m : List (String × β)) (k : String) : List (String × β) :=
  m.filter (fun p => p.1 != k)

/-- Insert into an association list, overwriting any prior entry. -/
def alInsert {β : Type} (m : List (String × β)) (k : String) (v : β) : List (String × β) :=
  (k, v) :: alErase m k

/-- Backend::did_close — the source removes the document_map entry for the
URI (and nothing else). -/
def did_close (st : ServerState) (uri : String) : ServerState :=
  { st with documentMap := alErase st.documentMap uri }

/-- Backend::on_change — replace both the rope and the tree stored for the
URI; the tree is produced by the external HTML parser from the new text,
passed in as a function. -/
def on_change (parseHtml : List Char → HNode) (st : ServerState)
    (uri : String) (text : List Char) : ServerState :=
  { st with
    documentMap := alInsert st.documentMap uri text
    astMap := alInsert st.astMap uri (parseHtml text) }

/-- Number of lines of a rope, as ropey's len_lines: one more than the
number of newline chars. -/
def lenLines (t : List Char) : Nat :=
  (t.filter (fun c => c == '\n')).length + 1

/-- Char index of the start of the given line (total when the line number
is in bounds; callers guard with lenLines). -/
def lineToChar : List Char → Nat → Nat
  | _, 0 => 0
  | [], _ + 1 => 0
  | c :: cs, l + 1 => 1 + lineToChar cs (if c = '\n' then l else l + 1)

/-- Rope::try_line_to_char: Err when the line index exceeds len_lines. -/
def tryLineToChar (t : List Char) (line : Nat) : Option Nat :=
  if line ≤ lenLines t then some (lineToChar t line) else none

/-- The offset computation shared by both request handlers:
try_line_to_char(position.line) plus position.character, with no clamping
to the line length. -/
def requestOffset (rope : List Char) (pos : Position) : Option Nat :=
  (tryLineToChar rope pos.line).map (fun c => c + pos.character)

/-- Split a char sequence into its lines (newline chars dropped). -/
def splitLines : List Char → List (List Char)
  | [] => [[]]
  | c :: cs =>
    if c = '\n' then [] :: splitLines cs
    else (c :: (splitLines cs).headD []) :: (splitLines cs).tail

/-- Spec-side definition of the Position Mapper: the character index of
the start of a line is the total length of the preceding lines, counting
one newline terminator per preceding line. -/
def specLineStart (t : List Char) (line : Nat) : Nat :=
  ((((splitLines t).take line).map (fun l => l.length + 1))).sum

/-- The tail of goto_definition after the offset is computed: find the
tag_name node at the offset, slice its text out of the rope, look the
selector up in the index, and answer its location; every absent step
yields none. -/
def resolveDef (components : Index) (rope : List Char) (ast : HNode)
    (offset : Nat) : Except String (Option Location) :=
  match findNode ast offset ["tag_name"] with
  | none => Except.ok none
  | some n =>
    match ropeSlice rope n.startB n.endB with
    | Except.error e => Except.error e
    | Except.ok chars =>
      match idxLookup components (String.mk chars) with
      | none => Except.ok none
      | some comp => Except.ok (some { uri := comp.file_url, range := comp.class_name_range })

/-- Backend::goto_definition: ast lookup, rope lookup, position mapping,
then resolveDef; the handler itself always answers Ok, so the Except layer
only carries panics. -/
def gotoDefinitionHandler (st : ServerState) (uri : String) (pos : Position) :
    Except String (Option Location) :=
  match List.lookup uri st.astMap with
  | none => Except.ok none
  | some ast =>
    match List.lookup uri st.documentMap with
    | none => Except.ok none
    | some rope =>
      match requestOffset rope pos with
      | none => Except.ok none
      | some off => resolveDef st.components rope ast off

/-- Backend::completion: rope lookup, ast lookup, position mapping, then
the completion function; a failed lookup answers Ok(None). -/
def completionHandler (st : ServerState) (uri : String) (pos : Position) :
    Except String (Option (List CompletionItem)) :=
  match List.lookup uri st.documentMap with
  | none => Except.ok none
  | some rope =>
    match List.lookup uri st.astMap with
    | none => Except.ok none
    | some ast =>
      match requestOffset rope pos with
      | none => Except.ok none
      | some off => Except.map some (completionFn ast off rope st.components)

/-! ## Index operation interleavings

DashMap serialises individual key operations, so a concurrent history of
the background scan's inserts and the handlers' lookups is modelled as an
arbitrary interleaving: a sequence of atomic operations applied to the
index. Lookups do not change the map. -/

/-- One atomic index operation. -/
inductive IndexOp where
  | insert (k : String) (v : Component)
  | lookup (k : String)

/-- Apply one operation to the index. -/
def applyOp (m : Index) : IndexOp → Index
  | IndexOp.insert k v => idxInsert m k v
  | IndexOp.lookup _ => m

/-- Apply an interleaving of operations, left to right. -/
def applyOps (m : Index) (ops : List IndexOp) : Index :=
  ops.foldl applyOp m

/-- The keys of the insert operations of an interleaving, in order. -/
def insertKeys (ops : List IndexOp) : List String :=
  ops.filterMap (fun op =>
    match op with
    | IndexOp.insert k _ => some k
    | IndexOp.lookup _ => none)

/-! ## Concrete instances used by witnesses and counterexamples -/

/-- A sample class-name token range. -/
def exRange : Range :=
  { startLine := 2, startChar := 10, endLine := 2, endChar := 13 }

/-- A sample component class with one Input and one Output member. -/
def goodClass : ClassDecl :=
  { name := "GoodComponent"
    nameRange := exRange
    members := [ { decorator := some "Input", name := "value" },
                 { decorator := some "Output", name := "changed" } ] }

/-- The Component decorator of goodItem. -/
def goodDec : DecoratorCall :=
  { name := "Component", args := [ArgValue.obj [("selector", ArgValue.str "app-good")]] }

/-- A sample export statement declaring a component. -/
def goodItem : TopLevel :=
  { exported := true, decorators := [goodDec], decl := Declaration.classDecl goodClass }

/-- A sample parsed source file. -/
def goodFile : TsFile := [goodItem]

/-- The component extracted from goodFile at path good.ts. -/
def goodComp : Component :=
  { selector := "app-good", file_url := "file://good.ts", class_name_range := exRange,
    inputs := ["value"], outputs := ["changed"] }

/-- A file system on which only good.ts is readable. -/
def readFs : String → Option String :=
  fun p => if p == "good.ts" then some "good-source" else none

/-- A parser that yields goodFile for any contents. -/
def parseFs : String → Option TsFile := fun _ => some goodFile

/-- An exported class decorated with a call named Directive (not
Component) whose argument object carries a selector string. -/
def dirClass : ClassDecl := { name := "XComponent", nameRange := exRange, members := [] }

/-- The Directive decorator carrying a selector string. -/
def dirDec : DecoratorCall :=
  { name := "Directive", args := [ArgValue.obj [("selector", ArgValue.str "app-x")]] }

/-- A file whose only class is decorated with Directive. -/
def dirFile : TsFile :=
  [ { exported := true, decorators := [dirDec], decl := Declaration.classDecl dirClass } ]

/-- The char sequence of the sample template text, seven chars. -/
def exRope : List Char := "<ab cd>".data

/-- tag_name node of the sample tree, spanning bytes 1 to 3 ("ab"). -/
def tagNameN : HNode := HNode.node "tag_name" true 1 3 []

/-- attribute_name node spanning bytes 4 to 6 ("cd"). -/
def attrNameN : HNode := HNode.node "attribute_name" true 4 6 []

/-- attribute node containing the attribute name. -/
def attrN : HNode := HNode.node "attribute" true 4 6 [attrNameN]

/-- start_tag node of the sample tree. -/
def startTagN : HNode :=
  HNode.node "start_tag" true 0 7
    [HNode.node "<" false 0 1 [], tagNameN, attrN, HNode.node ">" false 6 7 []]

/-- element node of the sample tree. -/
def elemN : HNode := HNode.node "element" true 0 7 [startTagN]

/-- root fragment node of the sample parse tree. -/
def fragN : HNode := HNode.node "fragment" true 0 7 [elemN]

/-- A component registered under selector ab. -/
def abComp : Component :=
  { selector := "ab", file_url := "file:///src/ab.ts", class_name_range := exRange,
    inputs := ["value"], outputs := ["changed"] }

/-- An index holding abComp. -/
def exIdx : Index := [("ab", abComp)]

/-- A server state with one open document and its tree. -/
def exSt : ServerState :=
  { components := exIdx
    documentMap := [("file:///a.html", exRope)]
    astMap := [("file:///a.html", fragN)] }

/-- The empty server state. -/
def emptySt : ServerState := { components := [], documentMap := [], astMap := [] }

/-- A two-line rope. -/
def twoLineRope : List Char := "ab\ncd".data

/-- A state holding the two-line document and the sample tree. -/
def twoLineSt : ServerState :=
  { components := exIdx
    documentMap := [("file:///b.html", twoLineRope)]
    astMap := [("file:///b.html", fragN)] }

/-- A sample interleaving: two inserts of distinct selectors with lookups
in between. -/
def exOps : List IndexOp :=
  [IndexOp.insert "ab" abComp, IndexOp.lookup "app-good",
   IndexOp.insert "app-good" goodComp, IndexOp.lookup "ab"]

/-! ## Helper lemmas about the index -/

theorem idx_lookup_insert_self (m : Index) (k : String) (v : Component) :
    idxLookup (idxInsert m k v) k = some v := by
  simp [idxLookup, idxInsert, List.find?_cons]

theorem find_filter_ne (m : Index) (k q : String) (h : q ≠ k) :
    (m.filter (fun p => p.1 != k)).find? (fun p => p.1 == q) =
      m.find? (fun p => p.1 == q) := by
  induction m with
  | nil => rfl
  | cons a m ih =>
    by_cases ha : a.1 = k
    · have h1 : (a.1 != k) = false := by simp [ha]
      have h2 : (a.1 == q) = false := by
        rw [ha]
        exact beq_eq_false_iff_ne.mpr (Ne.symm h)
      simp [List.filter_cons, h1, List.find?_cons, h2, ih]
    · have h1 : (a.1 != k) = true := by simp [ha]
      by_cases hq : a.1 = q
      · have h2 : (a.1 == q) = true := by simp [hq]
        simp [List.filter_cons, h1, List.find?_cons, h2]
      · have h2 : (a.1 == q) = false := by simp [hq]
        simp [List.filter_cons, h1, List.find?_cons, h2, ih]

theorem idx_lookup_insert_ne (m : Index) (k q : String) (v : Component) (h : q ≠ k) :
    idxLookup (idxInsert m k v) q = idxLookup m q := by
  have h2 : (k == q) = false := beq_eq_false_iff_ne.mpr (Ne.symm h)
  simp only [idxLookup, idxInsert, List.find?_cons, h2]
  rw [find_filter_ne m k q h]

theorem idx_lookup_insertAll_ne (cs : List Component) (k : String) :
    ∀ m : Index, (∀ c ∈ cs, c.selector ≠ k) →
      idxLookup (insertAll m cs) k = idxLookup m k := by
  induction cs with
  | nil => intro m _; rfl
  | cons c cs ih =>
    intro m h
    have hstep : insertAll m (c :: cs) = insertAll (idxInsert m c.selector c) cs := rfl
    rw [hstep, ih _ (fun d hd => h d (List.mem_cons_of_mem c hd)),
      idx_lookup_insert_ne _ _ _ _ (Ne.symm (h c (List.mem_cons_self c cs)))]

theorem idx_lookup_applyOps_ne (ops : List IndexOp) (k : String) :
    ∀ m : Index, (∀ k2 v2, IndexOp.insert k2 v2 ∈ ops → k2 ≠ k) →
      idxLookup (applyOps m ops) k = idxLookup m k := by
  induction ops with
  | nil => intro m _; rfl
  | cons op rest ih =>
    intro m h
    have hstep : applyOps m (op :: rest) = applyOps (applyOp m op) rest := rfl
    rw [hstep, ih _ (fun k2 v2 hm => h k2 v2 (List.mem_cons_of_mem op hm))]
    cases op with
    | insert k2 v2 =>
      exact idx_lookup_insert_ne _ _ _ _ (Ne.symm (h k2 v2 (List.mem_cons_self _ _)))
    | lookup _ => rfl

/-! ## Helper lemmas about line starts -/

theorem splitLines_ne_nil (t : List Char) : splitLines t ≠ [] := by
  cases t with
  | nil => simp [splitLines]
  | cons c cs => by_cases h : c = '\n' <;> simp [splitLines, h]

theorem lineToChar_eq_spec :
    ∀ (t : List Char) (l : Nat), l < lenLines t → lineToChar t l = specLineStart t l := by
  intro t
  induction t with
  | nil =>
    intro l hl
    have hl0 : l = 0 := by
      have h1 : l < 1 := by simpa [lenLines] using hl
      omega
    subst hl0
    rfl
  | cons c cs ih =>
    intro l hl
    cases l with
    | zero => rfl
    | succ l =>
      obtain ⟨h0, t0, hsplit⟩ : ∃ h0 t0, splitLines cs = h0 :: t0 := by
        cases hsp : splitLines cs with
        | nil => exact absurd hsp (splitLines_ne_nil cs)
        | cons a b => exact ⟨a, b, rfl⟩
      by_cases h : c = '\n'
      · subst h
        have hlen : lenLines ('\n' :: cs) = lenLines cs + 1 := by
          simp [lenLines, List.filter_cons]
        have hl2 : l < lenLines cs := by omega
        have hrec := ih l hl2
        simp [lineToChar, specLineStart, splitLines, List.take_succ_cons] at hrec ⊢
        omega
      · have hb : (c == '\n') = false := by simp [h]
        have hlen : lenLines (c :: cs) = lenLines cs := by
          simp [lenLines, List.filter_cons, hb]
        have hl2 : l + 1 < lenLines cs := by omega
        have hrec := ih (l + 1) hl2
        simp [lineToChar, h, specLineStart, splitLines, hsplit, List.take_succ_cons] at hrec ⊢
        omega

/-! ## Helper lemmas about the tree walk -/

theorem wfB_node {k : String} {nm : Bool} {s e : Nat} {cs : List HNode}
    (h : wfB (HNode.node k nm s e cs) = true) :
    s ≤ e ∧ wfChildren s e cs = true ∧ sortedB cs = true := by
  simp only [wfB, Bool.and_eq_true, decide_eq_true_eq] at h
  exact ⟨h.1.1, h.1.2, h.2⟩

theorem wfChildren_mem {s e : Nat} {cs : List HNode} {c : HNode}
    (h : wfChildren s e cs = true) (hc : c ∈ cs) :
    s ≤ c.startB ∧ c.endB ≤ e ∧ wfB c = true := by
  induction cs with
  | nil => cases hc
  | cons d rest ih =>
    simp only [wfChildren, Bool.and_eq_true, decide_eq_true_eq] at h
    rcases List.mem_cons.mp hc with h1 | h1
    · subst h1
      exact ⟨h.1.1.1, h.1.1.2, h.1.2⟩
    · exact ih h.2 h1

theorem wfB_own {n : HNode} (h : wfB n = true) : n.startB ≤ n.endB := by
  cases n with
  | node k nm s e cs => exact (wfB_node h).1

theorem sortedB_tail {d : HNode} {rest : List HNode}
    (h : sortedB (d :: rest) = true) : sortedB rest = true := by
  cases rest with
  | nil => rfl
  | cons r rest2 =>
    simp only [sortedB, Bool.and_eq_true, decide_eq_true_eq] at h
    exact h.2

theorem occursAvoiding_occurs {kinds : List String} {n t : HNode}
    (h : OccursAvoiding kinds n t) : Occurs n t := by
  induction h with
  | here => exact Occurs.here
  | child k nm s e cs c hc hk ho ih => exact Occurs.child k nm s e cs c hc ih

theorem occurs_span {n t : HNode} (ho : Occurs n t) :
    wfB t = true → t.startB ≤ n.startB ∧ n.endB ≤ t.endB := by
  induction ho with
  | here => intro _; exact ⟨Nat.le_refl _, Nat.le_refl _⟩
  | child k nm s e cs c hc ho ih =>
    intro ht
    obtain ⟨hse, hch, hs⟩ := wfB_node ht
    obtain ⟨h1, h2, hwc⟩ := wfChildren_mem hch hc
    obtain ⟨h3, h4⟩ := ih hwc
    exact ⟨Nat.le_trans h1 h3, Nat.le_trans h4 h2⟩

theorem sorted_head_le {c : HNode} {rest : List HNode} :
    ∀ {d : HNode}, sortedB (d :: rest) = true →
      (∀ x ∈ rest, x.startB ≤ x.endB) → c ∈ rest → d.endB ≤ c.startB := by
  induction rest with
  | nil => intro d _ _ hc; cases hc
  | cons r rest2 ih =>
    intro d hs hse hc
    simp only [sortedB, Bool.and_eq_true, decide_eq_true_eq] at hs
    rcases List.mem_cons.mp hc with h1 | h1
    · subst h1; exact hs.1
    · have hrec := ih hs.2 (fun x hx => hse x (List.mem_cons_of_mem r hx)) h1
      exact Nat.le_trans hs.1 (Nat.le_trans (hse r (List.mem_cons_self r rest2)) hrec)

theorem findSibs_cons_of_single {kinds : List String} {off : Nat} {c n : HNode}
    {rest : List HNode} (h : findSibs kinds off [c] = some n) :
    findSibs kinds off (c :: rest) = some n := by
  cases c with
  | node k nm s e cs =>
    by_cases hin : s ≤ off ∧ off ≤ e
    · simp only [findSibs, if_pos hin] at h ⊢
      exact h
    · simp only [findSibs, if_neg hin] at h
      cases h

theorem findSibs_focus {kinds : List String} {off : Nat} {c n : HNode}
    (hres : findSibs kinds off [c] = some n) (hgt : c.startB < off) :
    ∀ cs : List HNode, sortedB cs = true → (∀ x ∈ cs, x.startB ≤ x.endB) →
      c ∈ cs → findSibs kinds off cs = some n := by
  intro cs
  induction cs with
  | nil => intro _ _ hc; cases hc
  | cons d rest ih =>
    intro hs hse hc
    rcases List.mem_cons.mp hc with h1 | h1
    · subst h1; exact findSibs_cons_of_single hres
    · have hd : d.endB ≤ c.startB :=
        sorted_head_le hs (fun x hx => hse x (List.mem_cons_of_mem d hx)) h1
      cases d with
      | node k nm s e cs2 =>
        simp only [HNode.endB] at hd
        have hnot : ¬ (s ≤ off ∧ off ≤ e) := by
          intro hcon
          omega
        simp only [findSibs, if_neg hnot]
        exact ih (sortedB_tail hs) (fun x hx => hse x (List.mem_cons_of_mem _ hx)) h1

theorem findNode_reaches {kinds : List String} {off : Nat} {n t : HNode}
    (ho : OccursAvoiding kinds n t) :
    wfB t = true → n.kind ∈ kinds → n.startB < off → off < n.endB →
    findSibs kinds off [t] = some n := by
  induction ho with
  | here =>
    intro hwf hk h1 h2
    cases n with
    | node k nm s e cs =>
      simp only [HNode.startB, HNode.endB] at h1 h2
      simp only [HNode.kind] at hk
      simp only [findSibs]
      rw [if_pos ⟨Nat.le_of_lt h1, Nat.le_of_lt h2⟩, if_pos hk]
  | child k nm s e cs c hc hk2 ho ih =>
    intro hwf hkind h1 h2
    obtain ⟨hse, hch, hsort⟩ := wfB_node hwf
    obtain ⟨hcs, hce, hcw⟩ := wfChildren_mem hch hc
    have hres : findSibs kinds off [c] = some n := ih hcw hkind h1 h2
    obtain ⟨hs1, hs2⟩ := occurs_span (occursAvoiding_occurs ho) hcw
    have hcont : s ≤ off ∧ off ≤ e :=
      ⟨Nat.le_trans hcs (Nat.le_trans hs1 (Nat.le_of_lt h1)),
       Nat.le_trans (Nat.le_of_lt h2) (Nat.le_trans hs2 hce)⟩
    simp only [findSibs, if_pos hcont, if_neg hk2]
    exact findSibs_focus hres (Nat.lt_of_le_of_lt hs1 h1) cs hsort
      (fun x hx => wfB_own (wfChildren_mem hch hx).2.2) hc

theorem findSibs_some_occurs_aux (kinds : List String) (off : Nat) :
    ∀ (N : Nat) (cs : List HNode), sizeL cs ≤ N → ∀ n : HNode,
      findSibs kinds off cs = some n →
      (∃ c, c ∈ cs ∧ Occurs n c) ∧ n.startB ≤ off ∧ off ≤ n.endB := by
  intro N
  induction N with
  | zero =>
    intro cs hsz n h
    cases cs with
    | nil => simp [findSibs] at h
    | cons c rest =>
      cases c with
      | node k nm s e cs2 => simp [sizeL] at hsz
  | succ N ih =>
    intro cs hsz n h
    cases cs with
    | nil => simp [findSibs] at h
    | cons c rest =>
      cases c with
      | node k nm s e cs2 =>
        simp only [sizeL] at hsz
        simp only [findSibs] at h
        by_cases hin : s ≤ off ∧ off ≤ e
        · rw [if_pos hin] at h
          by_cases hk : k ∈ kinds
          · rw [if_pos hk] at h
            injection h with h2
            subst h2
            exact ⟨⟨_, List.mem_cons_self _ _, Occurs.here⟩, hin.1, hin.2⟩
          · rw [if_neg hk] at h
            obtain ⟨⟨c2, hc2, ho⟩, h1, h2⟩ := ih cs2 (by omega) n h
            exact ⟨⟨_, List.mem_cons_self _ _, Occurs.child k nm s e cs2 c2 hc2 ho⟩,
              h1, h2⟩
        · rw [if_neg hin] at h
          obtain ⟨⟨c2, hc2, ho⟩, h1, h2⟩ := ih rest (by omega) n h
          exact ⟨⟨c2, List.mem_cons_of_mem _ hc2, ho⟩, h1, h2⟩

theorem findNode_none_of_outside {root : HNode} {off : Nat} {kinds : List String}
    (h : ∀ m : HNode, Occurs m root → ¬ (m.startB ≤ off ∧ off ≤ m.endB)) :
    findNode root off kinds = none := by
  cases hf : findNode root off kinds with
  | none => rfl
  | some n =>
    obtain ⟨⟨c, hc, ho⟩, h1, h2⟩ :=
      findSibs_some_occurs_aux kinds off (sizeL [root]) [root] (Nat.le_refl _) n hf
    have hcr : c = root := by simpa using hc
    subst hcr
    exact absurd ⟨h1, h2⟩ (h n ho)

/-! ## Further helper lemmas -/

theorem replaceBraces_squareTemplate (nm : String) :
    String.mk (replaceBraces nm.data ("[\x7b\x7d]=\"$0\"").data) =
      "[" ++ nm ++ "]=\"$0\"" := by
  cases nm with
  | mk l => rfl

theorem replaceBraces_parenTemplate (nm : String) :
    String.mk (replaceBraces nm.data ("(\x7b\x7d)=\"$0\"").data) =
      "(" ++ nm ++ ")=\"$0\"" := by
  cases nm with
  | mk l => rfl

theorem makeCompletions_square (elements : List String) :
    makeCompletions elements "[\x7b\x7d]=\"$0\"" =
      elements.map (fun nm =>
        { label := nm, kind := some CIKind.field,
          insert_text := some ("[" ++ nm ++ "]=\"$0\""),
          insert_text_format := some ITFormat.snippet }) := by
  simp only [makeCompletions]
  refine List.map_congr_left ?_
  intro nm _
  rw [replaceBraces_squareTemplate nm]

theorem makeCompletions_paren (elements : List String) :
    makeCompletions elements "(\x7b\x7d)=\"$0\"" =
      elements.map (fun nm =>
        { label := nm, kind := some CIKind.field,
          insert_text := some ("(" ++ nm ++ ")=\"$0\""),
          insert_text_format := some ITFormat.snippet }) := by
  simp only [makeCompletions]
  refine List.map_congr_left ?_
  intro nm _
  rw [replaceBraces_parenTemplate nm]

theorem lookup_alErase {β : Type} (m : List (String × β)) (k : String) :
    List.lookup k (alErase m k) = none := by
  induction m with
  | nil => rfl
  | cons a m ih =>
    obtain ⟨k1, v1⟩ := a
    by_cases ha : k1 = k
    · have h1 : (k1 != k) = false := by simp [ha]
      simpa [alErase, List.filter_cons, h1] using ih
    · have h1 : (k1 != k) = true := by simp [ha]
      have h2 : (k == k1) = false := beq_eq_false_iff_ne.mpr (Ne.symm ha)
      simpa [alErase, List.filter_cons, h1, List.lookup, h2] using ih

theorem mem_concatMap {α β : Type} (g : α → List β) {a : α} {b : β} :
    ∀ {l : List α}, a ∈ l → b ∈ g a → b ∈ concatMap g l := by
  intro l
  induction l with
  | nil => intro h; cases h
  | cons x xs ih =>
    intro ha hb
    rcases List.mem_cons.mp ha with h1 | h1
    · subst h1
      exact List.mem_append.mpr (Or.inl hb)
    · exact List.mem_append.mpr (Or.inr (ih h1 hb))

/-! ## The claims -/

/-- C1, counterexample: on a workspace whose glob yields bad.ts (which
fails to read) followed by good.ts (which reads, parses and contains a
component), analyze_workspace does not skip the bad file and continue —
it panics on the read (the expect in analyze_file), and the component of
good.ts is not extracted; scanning good.ts alone would have produced it. -/
theorem c1_counterexample :
    analyzeWorkspace readFs parseFs [GlobEntry.ok "bad.ts", GlobEntry.ok "good.ts"] [] =
      Except.error "Should have been able to read the file" ∧
    analyzeWorkspace readFs parseFs [GlobEntry.ok "good.ts"] [] =
      Except.ok [("app-good", goodComp)] := by
  constructor <;> rfl

/-- C1, amended: during the workspace scan, a glob entry error is skipped
with a logged warning and iteration continues, but a file that fails to
read, or whose parse returns no tree, raises a panic (modelled as
Except.error) that aborts the scan of all remaining files. -/
theorem c1_thm (readFile : String → Option String) (parseTs : String → Option TsFile)
    (rest : List GlobEntry) (msg p txt : String) (idx : Index) :
    (analyzeWorkspace readFile parseTs (GlobEntry.err msg :: rest) idx =
      analyzeWorkspace readFile parseTs rest idx) ∧
    (readFile p = none →
      analyzeWorkspace readFile parseTs (GlobEntry.ok p :: rest) idx =
        Except.error "Should have been able to read the file") ∧
    (readFile p = some txt → parseTs txt = none →
      analyzeWorkspace readFile parseTs (GlobEntry.ok p :: rest) idx =
        Except.error "called Option::unwrap on a None value") := by
  refine ⟨rfl, ?_, ?_⟩
  · intro h
    simp [analyzeWorkspace, analyzeFile, h]
  · intro h1 h2
    simp [analyzeWorkspace, analyzeFile, h1, h2]

/-- C1, witness for the amended claim at a concrete input: the unreadable
bad.ts aborts the scan even though good.ts follows. -/
theorem c1_witness :
    analyzeWorkspace readFs parseFs [GlobEntry.ok "bad.ts", GlobEntry.ok "good.ts"] [] =
      Except.error "Should have been able to read the file" :=
  (c1_thm readFs parseFs [GlobEntry.ok "good.ts"] "m" "bad.ts" "t" []).2.1 rfl

/-- C2, counterexample: with a document open (rope and tree stored under
its URI), did_close removes only the document_map entry; the ast_map still
holds the parsed tree for the URI, so the Open Document entry is not
entirely removed as the claim states. -/
theorem c2_counterexample :
    List.lookup "file:///a.html" (did_close exSt "file:///a.html").astMap = some fragN ∧
    List.lookup "file:///a.html" (did_close exSt "file:///a.html").documentMap = none := by
  constructor <;> rfl

/-- C2, amended: after did_close(uri), the text buffer entry for the URI
is removed from the Document Store's document_map, while the ast_map (the
stored parsed tree) and the component index are left unchanged. -/
theorem c2_thm (st : ServerState) (uri : String) :
    List.lookup uri (did_close st uri).documentMap = none ∧
    (did_close st uri).astMap = st.astMap ∧
    (did_close st uri).components = st.components :=
  ⟨lookup_alErase st.documentMap uri, rfl, rfl⟩

/-- C3, counterexample: an exported class directly preceded by a decorator
call whose argument is an object literal with a selector key holding the
string app-x — but the decorator is named Directive, not Component. The
claim requires a Component record with selector app-x to be emitted;
the extractor emits nothing, because the query constrains the decorator
name with an eq predicate on Component. -/
theorem c3_counterexample :
    (∃ t, t ∈ dirFile ∧ t.exported = true ∧
      t.decl = Declaration.classDecl dirClass ∧
      ∃ d, d ∈ t.decorators ∧
        d.args = [ArgValue.obj [("selector", ArgValue.str "app-x")]]) ∧
    extractComponents "x.ts" dirFile = [] := by
  refine ⟨⟨_, List.mem_cons_self _ _, rfl, rfl, dirDec, List.mem_cons_self _ _, rfl⟩, rfl⟩

/-- C3, amended: for every source file and every exported class
declaration directly preceded by a decorator call named Component whose
arguments include an object literal containing a selector key with a
string value (the only such selector pair for this statement), the
extractor emits exactly one Component record from that statement, whose
selector is the string with quotes stripped (the captured string_fragment)
and whose declaration_location is the range of the class name token; that
record is among the file's extracted components. -/
theorem c3_thm (path : String) (f : TsFile) (t : TopLevel) (c : ClassDecl)
    (d : DecoratorCall) (s : String)
    (ht : t ∈ f) (he : t.exported = true) (hdecl : t.decl = Declaration.classDecl c)
    (hd : t.decorators = [d]) (hn : d.name = "Component")
    (hs : selectorStringsOf d = [s]) :
    componentsOfItem path t =
      [{ selector := s, file_url := mkFileUrl path, class_name_range := c.nameRange,
         inputs := (collectInOut c.members).1,
         outputs := (collectInOut c.members).2 }] ∧
    ({ selector := s, file_url := mkFileUrl path, class_name_range := c.nameRange,
       inputs := (collectInOut c.members).1,
       outputs := (collectInOut c.members).2 } : Component) ∈
      extractComponents path f := by
  have hone : componentsOfItem path t =
      [{ selector := s, file_url := mkFileUrl path, class_name_range := c.nameRange,
         inputs := (collectInOut c.members).1,
         outputs := (collectInOut c.members).2 }] := by
    simp [componentsOfItem, he, hdecl, hd, hn, hs, concatMap]
  refine ⟨hone, mem_concatMap (componentsOfItem path) ht ?_⟩
  rw [hone]
  exact List.mem_cons_self _ _

/-- C3, witness for the amended claim: the sample file goodFile yields
exactly the component goodComp. -/
theorem c3_witness :
    componentsOfItem "good.ts" goodItem = [goodComp] ∧
    goodComp ∈ extractComponents "good.ts" goodFile :=
  c3_thm "good.ts" goodFile goodItem goodClass goodDec "app-good"
    (List.mem_cons_self _ _) rfl rfl rfl rfl rfl

/-- C4: in the member classification of analyze_file, the inputs list is
exactly the names, in source order, of the members whose immediately
preceding decorator call is named Input; the outputs list is exactly the
names, in source order, of the members whose decorator name matches the
Input-or-Output regex without being Input (in particular every member
decorated with Output appears in outputs, in source order, witnessed by
the sublist embedding). -/
theorem c4_thm (ms : List Member) :
    (collectInOut ms).1 =
      (ms.filter (fun m => m.decorator == some "Input")).map Member.name ∧
    (collectInOut ms).2 =
      (ms.filter (fun m =>
        match m.decorator with
        | some d => matchesInOut d && !(d == "Input")
        | none => false)).map Member.name ∧
    List.Sublist
      ((ms.filter (fun m => m.decorator == some "Output")).map Member.name)
      (collectInOut ms).2 := by
  induction ms with
  | nil => exact ⟨rfl, rfl, List.Sublist.refl _⟩
  | cons m ms ih =>
    obtain ⟨ih1, ih2, ih3⟩ := ih
    cases hd : m.decorator with
    | none =>
      simpa [collectInOut, hd, List.filter_cons] using ⟨ih1, ih2, ih3⟩
    | some d =>
      cases hm : matchesInOut d with
      | false =>
        have hi : d ≠ "Input" := by
          intro hx
          rw [hx] at hm
          exact absurd hm (by decide)
        have ho : d ≠ "Output" := by
          intro hx
          rw [hx] at hm
          exact absurd hm (by decide)
        have hib : (some d == some "Input") = false := by simp [hi]
        have hob : (some d == some "Output") = false := by simp [ho]
        simpa [collectInOut, hd, hm, List.filter_cons, hib, hob]
          using ⟨ih1, ih2, ih3⟩
      | true =>
        by_cases hieq : d = "Input"
        · subst hieq
          have hno : ((some "Input" : Option String) == some "Output") = false := rfl
          have hyes : ((some "Input" : Option String) == some "Input") = true := rfl
          have hib : (("Input" : String) == "Input") = true := rfl
          simpa [collectInOut, hd, hm, List.filter_cons, hno, hyes, hib]
            using ⟨ih1, ih2, ih3⟩
        · have hib : (d == "Input") = false := beq_eq_false_iff_ne.mpr hieq
          have hib2 : (some d == some "Input") = false := by simp [hieq]
          by_cases hoeq : d = "Output"
          · subst hoeq
            have hob : ((some "Output" : Option String) == some "Output") = true := rfl
            simpa [collectInOut, hd, hm, List.filter_cons, hib, hib2, hob]
              using ⟨ih1, ih2, ih3⟩
          · have hob : (some d == some "Output") = false := by simp [hoeq]
            simpa [collectInOut, hd, hm, List.filter_cons, hib, hib2, hob]
              using ⟨ih1, ih2, List.Sublist.cons _ ih3⟩

/-- C5: for completion and definition requests, every enumerated failure
mode resolves to an empty completion list or an absent definition inside
a protocol-level Ok, never an error: no open document — the rope missing,
the tree missing, or (the state did_close leaves) the tree present but
the rope missing, on either request path —, no enclosing node of the
requested kind — no start or self-closing tag for completion, no tag_name
for definition, and inside a start tag neither a tag_name nor an
attribute_name context, or an attribute_name context whose tag has no
named child —, and a selector absent from the index on either request
path. -/
theorem c5_thm (st : ServerState) (uri : String) (pos : Position) :
    (List.lookup uri st.documentMap = none →
      completionHandler st uri pos = Except.ok none) ∧
    (List.lookup uri st.astMap = none →
      gotoDefinitionHandler st uri pos = Except.ok none ∧
      (∀ rope, List.lookup uri st.documentMap = some rope →
        completionHandler st uri pos = Except.ok none)) ∧
    (∀ ast, List.lookup uri st.astMap = some ast →
      List.lookup uri st.documentMap = none →
      gotoDefinitionHandler st uri pos = Except.ok none) ∧
    (∀ rope ast off, List.lookup uri st.documentMap = some rope →
      List.lookup uri st.astMap = some ast → requestOffset rope pos = some off →
      findNode ast off ["start_tag", "self_closing_tag"] = none →
      completionHandler st uri pos = Except.ok (some [])) ∧
    (∀ rope ast off, List.lookup uri st.astMap = some ast →
      List.lookup uri st.documentMap = some rope →
      requestOffset rope pos = some off →
      findNode ast off ["tag_name"] = none →
      gotoDefinitionHandler st uri pos = Except.ok none) ∧
    (∀ rope ast off n chars, List.lookup uri st.astMap = some ast →
      List.lookup uri st.documentMap = some rope →
      requestOffset rope pos = some off →
      findNode ast off ["tag_name"] = some n →
      ropeSlice rope n.startB n.endB = Except.ok chars →
      idxLookup st.components (String.mk chars) = none →
      gotoDefinitionHandler st uri pos = Except.ok none) ∧
    (∀ rope ast off startTag, List.lookup uri st.documentMap = some rope →
      List.lookup uri st.astMap = some ast → requestOffset rope pos = some off →
      findNode ast off ["start_tag", "self_closing_tag"] = some startTag →
      findNode startTag off ["tag_name"] = none →
      findNode startTag off ["attribute_name"] = none →
      completionHandler st uri pos = Except.ok (some [])) ∧
    (∀ rope ast off startTag attrNd, List.lookup uri st.documentMap = some rope →
      List.lookup uri st.astMap = some ast → requestOffset rope pos = some off →
      findNode ast off ["start_tag", "self_closing_tag"] = some startTag →
      findNode startTag off ["tag_name"] = none →
      findNode startTag off ["attribute_name"] = some attrNd →
      namedChild0 startTag = none →
      completionHandler st uri pos = Except.ok (some [])) ∧
    (∀ rope ast off startTag attrNd nameNd chars,
      List.lookup uri st.documentMap = some rope →
      List.lookup uri st.astMap = some ast → requestOffset rope pos = some off →
      findNode ast off ["start_tag", "self_closing_tag"] = some startTag →
      findNode startTag off ["tag_name"] = none →
      findNode startTag off ["attribute_name"] = some attrNd →
      namedChild0 startTag = some nameNd →
      ropeSlice rope nameNd.startB nameNd.endB = Except.ok chars →
      idxLookup st.components (String.mk chars) = none →
      completionHandler st uri pos = Except.ok (some [])) := by
  refine ⟨?_, ?_, ?_, ?_, ?_, ?_, ?_, ?_, ?_⟩
  · intro h
    simp [completionHandler, h]
  · intro h
    refine ⟨by simp [gotoDefinitionHandler, h], ?_⟩
    intro rope hr
    simp [completionHandler, hr, h]
  · intro ast ha hd
    simp [gotoDefinitionHandler, ha, hd]
  · intro rope ast off h1 h2 h3 h4
    simp [completionHandler, h1, h2, h3, completionFn, h4, Except.map]
  · intro rope ast off h1 h2 h3 h4
    simp [gotoDefinitionHandler, h1, h2, h3, resolveDef, h4]
  · intro rope ast off n chars h1 h2 h3 h4 h5 h6
    simp [gotoDefinitionHandler, h1, h2, h3, resolveDef, h4, h5, h6]
  · intro rope ast off startTag h1 h2 h3 h4 h5 h6
    simp [completionHandler, h1, h2, h3, completionFn, h4, h5, h6, Except.map]
  · intro rope ast off startTag attrNd h1 h2 h3 h4 h5 h6 h7
    simp [completionHandler, h1, h2, h3, completionFn, h4, h5, h6, h7, Except.map]
  · intro rope ast off startTag attrNd nameNd chars h1 h2 h3 h4 h5 h6 h7 h8 h9
    simp [completionHandler, h1, h2, h3, completionFn, h4, h5, h6, h7, h8, h9,
      Except.map]

/-- C5, witness: on the empty server state both handlers answer the
absent result, and on a state holding only a parsed tree for the URI —
the state did_close leaves behind — goto_definition still answers the
absent result. -/
theorem c5_witness :
    completionHandler emptySt "file:///a.html" { line := 0, character := 0 } =
      Except.ok none ∧
    gotoDefinitionHandler emptySt "file:///a.html" { line := 0, character := 0 } =
      Except.ok none ∧
    gotoDefinitionHandler
      { components := [], documentMap := [], astMap := [("file:///a.html", fragN)] }
      "file:///a.html" { line := 0, character := 0 } = Except.ok none :=
  ⟨(c5_thm emptySt "file:///a.html" { line := 0, character := 0 }).1 rfl,
   ((c5_thm emptySt "file:///a.html" { line := 0, character := 0 }).2.1 rfl).1,
   (c5_thm
      { components := [], documentMap := [], astMap := [("file:///a.html", fragN)] }
      "file:///a.html" { line := 0, character := 0 }).2.2.1 fragN rfl rfl⟩

/-- C6: in attribute-name completion context — offset inside a start tag
or self-closing tag but not inside its tag name, and inside an attribute
name — when the tag's first named child slices to a tag name that
resolves to a component in the index, the result is exactly one item per
declared input with label the input name and snippet insertion text
bracket-name-bracket equals dollar-zero, followed by one item per
declared output with label the output name and snippet insertion text
paren-name-paren equals dollar-zero, inputs before outputs. -/
theorem c6_thm (root startTag attrNd nameNd : HNode) (offset : Nat)
    (rope : List Char) (components : Index) (comp : Component)
    (tagChars : List Char)
    (h1 : findNode root offset ["start_tag", "self_closing_tag"] = some startTag)
    (h2 : findNode startTag offset ["tag_name"] = none)
    (h3 : findNode startTag offset ["attribute_name"] = some attrNd)
    (h4 : namedChild0 startTag = some nameNd)
    (h5 : ropeSlice rope nameNd.startB nameNd.endB = Except.ok tagChars)
    (h6 : idxLookup components (String.mk tagChars) = some comp) :
    completionFn root offset rope components = Except.ok
      ((comp.inputs.map fun nm =>
          { label := nm, kind := some CIKind.field,
            insert_text := some ("[" ++ nm ++ "]=\"$0\""),
            insert_text_format := some ITFormat.snippet }) ++
       (comp.outputs.map fun nm =>
          { label := nm, kind := some CIKind.field,
            insert_text := some ("(" ++ nm ++ ")=\"$0\""),
            insert_text_format := some ITFormat.snippet })) := by
  simp only [completionFn, h1, h2, h3, h4, h5, h6]
  rw [makeCompletions_square, makeCompletions_paren]

/-- C6, witness: the sample tree and document, cursor at offset 5 (inside
the attribute name), with selector ab mapping to a component with input
value and output changed. -/
theorem c6_witness :
    completionFn fragN 5 exRope exIdx = Except.ok
      [{ label := "value", kind := some CIKind.field,
         insert_text := some "[value]=\"$0\"",
         insert_text_format := some ITFormat.snippet },
       { label := "changed", kind := some CIKind.field,
         insert_text := some "(changed)=\"$0\"",
         insert_text_format := some ITFormat.snippet }] := by
  have h1 : findNode fragN 5 ["start_tag", "self_closing_tag"] = some startTagN := by
    simp [findNode, findSibs, fragN, elemN, startTagN]
  have h2 : findNode startTagN 5 ["tag_name"] = none := by
    simp [findNode, findSibs, startTagN, tagNameN, attrN, attrNameN]
  have h3 : findNode startTagN 5 ["attribute_name"] = some attrNameN := by
    simp [findNode, findSibs, startTagN, tagNameN, attrN, attrNameN]
  rw [c6_thm fragN startTagN attrNameN tagNameN 5 exRope exIdx abComp
    ['a', 'b'] h1 h2 h3 rfl rfl rfl]
  rfl

/-- C7: over any well-formed parse tree, (1) for an offset strictly
inside the span of a tag_name node that has no tag_name strict ancestor,
find_node with the tag-name kind set returns exactly that node, and
(2) for an offset outside the inclusive span of every node of the tree,
find_node returns none for any kind set. -/
theorem c7_thm :
    (∀ (root n : HNode) (off : Nat), wfB root = true →
      OccursAvoiding ["tag_name"] n root → n.kind = "tag_name" →
      n.startB < off → off < n.endB →
      findNode root off ["tag_name"] = some n) ∧
    (∀ (root : HNode) (off : Nat) (kinds : List String),
      (∀ m : HNode, Occurs m root → ¬ (m.startB ≤ off ∧ off ≤ m.endB)) →
      findNode root off kinds = none) := by
  constructor
  · intro root n off hwf ho hk h1 h2
    exact findNode_reaches ho hwf (by rw [hk]; exact List.mem_singleton.mpr rfl) h1 h2
  · intro root off kinds h
    exact findNode_none_of_outside h

/-- C7, witness: on the sample tree, offset 2 lies strictly inside the
tag_name node and find_node returns it; offset 20 lies outside every
node's span and find_node returns none. -/
theorem c7_witness :
    findNode fragN 2 ["tag_name"] = some tagNameN ∧
    findNode fragN 20 ["tag_name"] = none := by
  have hwf : wfB fragN = true := by
    simp [wfB, wfChildren, sortedB, fragN, elemN, startTagN, tagNameN, attrN,
      attrNameN, HNode.startB, HNode.endB]
  constructor
  · refine (c7_thm).1 fragN tagNameN 2 hwf ?_ rfl (by decide) (by decide)
    refine OccursAvoiding.child "fragment" true 0 7 [elemN] elemN
      (List.mem_cons_self _ _) (by decide) ?_
    refine OccursAvoiding.child "element" true 0 7 [startTagN] startTagN
      (List.mem_cons_self _ _) (by decide) ?_
    exact OccursAvoiding.child "start_tag" true 0 7
      [HNode.node "<" false 0 1 [], tagNameN, attrN, HNode.node ">" false 6 7 []]
      tagNameN (List.mem_cons_of_mem _ (List.mem_cons_self _ _)) (by decide)
      OccursAvoiding.here
  · refine (c7_thm).2 fragN 20 ["tag_name"] ?_
    intro m hm hcon
    have hsp := occurs_span hm hwf
    have h7 : HNode.endB fragN = 7 := rfl
    omega

/-- C8: the linear offset both handlers use is the character index of the
start of the request position's line plus the position's character value,
with no clamping to the line length (the character summand is arbitrary),
and the handlers hand exactly this character-based offset to the byte-span
comparisons of find_node: goto_definition continues as resolveDef at that
offset and completion continues as the completion function at that
offset. The line start is characterised by the spec-side sum over the
preceding split lines. -/
theorem c8_thm (st : ServerState) (uri : String) (pos : Position)
    (rope : List Char) (ast : HNode)
    (hdoc : List.lookup uri st.documentMap = some rope)
    (hast : List.lookup uri st.astMap = some ast)
    (hline : pos.line < lenLines rope) :
    requestOffset rope pos = some (specLineStart rope pos.line + pos.character) ∧
    gotoDefinitionHandler st uri pos =
      resolveDef st.components rope ast
        (specLineStart rope pos.line + pos.character) ∧
    completionHandler st uri pos =
      Except.map some (completionFn ast
        (specLineStart rope pos.line + pos.character) rope st.components) := by
  have hle : pos.line ≤ lenLines rope := Nat.le_of_lt hline
  have h1 : tryLineToChar rope pos.line = some (lineToChar rope pos.line) := by
    rw [tryLineToChar, if_pos hle]
  have hoff : requestOffset rope pos =
      some (specLineStart rope pos.line + pos.character) := by
    simp [requestOffset, h1, lineToChar_eq_spec rope pos.line hline]
  refine ⟨hoff, ?_, ?_⟩
  · simp [gotoDefinitionHandler, hdoc, hast, hoff]
  · simp [completionHandler, hdoc, hast, hoff]

/-- C8, witness: on the two-line document ab newline cd, position line 1
character 2 maps to offset 3 + 2 = 5 with the spec-side line start 3. -/
theorem c8_witness :
    requestOffset twoLineRope { line := 1, character := 2 } =
      some (specLineStart twoLineRope 1 + 2) ∧
    specLineStart twoLineRope 1 + 2 = 5 := by
  refine ⟨(c8_thm twoLineSt "file:///b.html" { line := 1, character := 2 }
    twoLineRope fragN rfl rfl (by decide)).1, ?_⟩
  rfl

/-- C9: inserting a component overwrites any existing entry with the same
selector (last-writer-wins), insertion under one selector leaves every
other selector's stored component untouched, and a stored component is
never mutated afterwards: any further analyze_file insertion sequence
avoiding its selector leaves its lookup, fields intact, unchanged. -/
theorem c9_thm (m : Index) (k q : String) (v : Component) (cs : List Component) :
    idxLookup (idxInsert m k v) k = some v ∧
    (q ≠ k → idxLookup (idxInsert m k v) q = idxLookup m q) ∧
    ((∀ c ∈ cs, c.selector ≠ k) → idxLookup (insertAll m cs) k = idxLookup m k) := by
  refine ⟨idx_lookup_insert_self m k v, ?_, ?_⟩
  · intro h
    exact idx_lookup_insert_ne m k q v h
  · intro h
    exact idx_lookup_insertAll_ne cs k m h

/-- C9, witness: overwriting the existing ab entry yields the new
component; inserting app-good leaves ab untouched; an insertAll avoiding
ab leaves ab untouched. -/
theorem c9_witness :
    idxLookup (idxInsert exIdx "ab" goodComp) "ab" = some goodComp ∧
    idxLookup (idxInsert exIdx "app-good" goodComp) "ab" = idxLookup exIdx "ab" ∧
    idxLookup (insertAll exIdx [goodComp]) "ab" = idxLookup exIdx "ab" := by
  refine ⟨(c9_thm exIdx "ab" "ab" goodComp []).1, ?_, ?_⟩
  · exact (c9_thm exIdx "app-good" "ab" goodComp []).2.1 (by decide)
  · refine (c9_thm exIdx "ab" "ab" goodComp [goodComp]).2.2 ?_
    intro c hc
    rw [List.mem_singleton] at hc
    subst hc
    decide

/-- C10, helper: an insert operation's key is among the insert keys. -/
theorem mem_insertKeys {ops : List IndexOp} {k : String} {v : Component}
    (h : IndexOp.insert k v ∈ ops) : k ∈ insertKeys ops := by
  induction ops with
  | nil => cases h
  | cons op rest ih =>
    rcases List.mem_cons.mp h with h1 | h1
    · subst h1
      exact List.mem_cons_self _ _
    · cases op with
      | insert k2 v2 => exact List.mem_cons_of_mem _ (ih h1)
      | lookup q => exact ih h1

/-- C10: for any interleaving of index operations in which the insert
operations carry pairwise distinct selectors, every inserted component
remains lookupable under its selector in the final index, whatever
lookups are interleaved and whatever the initial index — no insertion is
lost or corrupted. Individual DashMap operations are atomic, so a
concurrent history is modelled as an arbitrary sequence of atomic
operations. -/
theorem c10_thm (ops : List IndexOp) (k : String) (v : Component)
    (hmem : IndexOp.insert k v ∈ ops) (hnodup : (insertKeys ops).Nodup) :
    ∀ m : Index, idxLookup (applyOps m ops) k = some v := by
  induction ops with
  | nil => cases hmem
  | cons op rest ih =>
    intro m
    have hstep : applyOps m (op :: rest) = applyOps (applyOp m op) rest := rfl
    rcases List.mem_cons.mp hmem with h1 | h1
    · subst h1
      have hk : k ∉ insertKeys rest := by
        have he : insertKeys (IndexOp.insert k v :: rest) = k :: insertKeys rest := rfl
        rw [he] at hnodup
        exact (List.nodup_cons.mp hnodup).1
      rw [hstep]
      have hpres : idxLookup (applyOps (applyOp m (IndexOp.insert k v)) rest) k =
          idxLookup (applyOp m (IndexOp.insert k v)) k := by
        refine idx_lookup_applyOps_ne rest k (applyOp m (IndexOp.insert k v)) ?_
        intro k2 v2 hm2 hkk
        subst hkk
        exact hk (mem_insertKeys hm2)
      rw [hpres]
      exact idx_lookup_insert_self m k v
    · have hnd : (insertKeys rest).Nodup := by
        cases op with
        | insert k2 v2 =>
          have he : insertKeys (IndexOp.insert k2 v2 :: rest) =
              k2 :: insertKeys rest := rfl
          rw [he] at hnodup
          exact (List.nodup_cons.mp hnodup).2
        | lookup q => exact hnodup
      rw [hstep]
      exact ih h1 hnd (applyOp m op)

/-- C10, witness: the sample interleaving of two distinct-selector
inserts and two lookups leaves both selectors lookupable. -/
theorem c10_witness :
    idxLookup (applyOps [] exOps) "ab" = some abComp ∧
    idxLookup (applyOps [] exOps) "app-good" = some goodComp := by
  constructor
  · exact c10_thm exOps "ab" abComp (List.mem_cons_self _ _) (by decide) []
  · exact c10_thm exOps "app-good" goodComp
      (List.mem_cons_of_mem _ (List.mem_cons_of_mem _ (List.mem_cons_self _ _)))
      (by decide) []

end ZeroToHero
